import Mathlib

set_option maxRecDepth 8000

/-!
Verification of the query-targeting core (`src/service/query_info.rs`):
the `QueryInfo` data model, the `rpc_request` builder, the `TargetKey`
projection and the `findnode_log2distance` distance-spread algorithm.

Machine integers are modelled as `Nat` (none of the arithmetic here can
overflow `u64`/`usize` on the reachable inputs: all distances lie in
`[0, 256]` and sizes are at most 127).  The `panic!` branch and the
potential non-termination of the `while` loop are made explicit through
the `Outcome` type: `panicked` models a Rust panic and `diverged` models
an infinite loop (the loop is given fuel that is proved sufficient on
every input that passes the `size > 127` guard).
-/

/-- A 256-bit node identifier: 32 raw bytes, each in `[0, 256)`.
Mirrors `enr::NodeId`, whose `raw()` is a `[u8; 32]`. -/
def NodeId : Type := { l : List Nat // l.length = 32 ∧ ∀ b ∈ l, b < 256 }

instance : DecidableEq NodeId := by
  unfold NodeId
  infer_instance

/-- The raw 32 bytes of a `NodeId` (Rust `NodeId::raw`). -/
def NodeId.raw (id : NodeId) : List Nat := id.val

/-- Big-endian interpretation of a byte string as a natural number,
the `U256` value the kbucket distance works on. -/
def bytesToNat (l : List Nat) : Nat := l.foldl (fun a b => a * 256 + b) 0

/-- The `U256` value of a node id's 32 raw bytes. -/
def NodeId.toNat (id : NodeId) : Nat := bytesToNat id.raw

/-- Position of the highest set bit (1-indexed), computed with explicit
fuel so that it is structurally recursive; `bitlenAux fuel n` equals the
bit length of `n` whenever `n < 2 ^ fuel`. -/
def bitlenAux : Nat → Nat → Nat
  | 0, _ => 0
  | fuel + 1, n => if n = 0 then 0 else bitlenAux fuel (n / 2) + 1

/-- Bit length of a 256-bit value (fuel 256 covers every `n < 2 ^ 256`). -/
def bitlen256 (n : Nat) : Nat := bitlenAux 256 n

/-- Modelled from the spec: the kbucket `Key::log2_distance` (the kbucket
module is outside the visible sources).  Per the spec's glossary, the XOR
metric log2 distance of two 256-bit identifiers is the position of the
highest differing bit of their bitwise XOR (so `8*(31-10)+1 = 169` when
only byte 10 differs, by a single low bit), and no distance exists when
the identifiers coincide. -/
def log2Distance (a b : Nat) : Option Nat :=
  if a ^^^ b = 0 then none else some (bitlen256 (a ^^^ b))

/-- Modelled from the spec: ENR peer records are opaque to this core
(only stored, never inspected), so they are represented abstractly. -/
def Enr : Type := Nat

/-- `QueryType` from `query_info.rs`: what we are querying and why. -/
inductive QueryType : Type where
  | FindNode (node_id : NodeId)
  | FindValue (node_id : NodeId)
deriving DecidableEq

/-- The identifier carried by a `QueryType` variant. -/
def QueryType.node : QueryType → NodeId
  | .FindNode node_id => node_id
  | .FindValue node_id => node_id

/-- `QueryCallback` from `query_info.rs`: a completion channel per query.
The channels themselves are external (tokio); they are modelled as opaque
handles, which suffices for the claims about this core. -/
inductive QueryCallback : Type where
  | FindNode (chan : Nat)
  | FindValue (chan : Nat)
deriving DecidableEq

/-- `QueryInfo` from `query_info.rs`. -/
structure QueryInfo : Type where
  query_type : QueryType
  untrusted_enrs : List Enr
  callback : QueryCallback
  distances_to_request : Nat

/-- Modelled from the spec: the two protocol request-body shapes emitted
by this core (`rpc::RequestBody` is outside the visible sources): a
node-lookup request carrying only the distance list, and a value-lookup
request carrying the key plus the distance list. -/
inductive RequestBody : Type where
  | FindNode (distances : List Nat)
  | FindValue (key : NodeId) (distances : List Nat)
deriving DecidableEq

/-- Result of running a piece of Rust code that may panic or loop
forever: `panicked` models `panic!`, `diverged` models non-termination
(fuel exhaustion in the embedding), `ok` a normal return. -/
inductive Outcome (α : Type) : Type where
  | panicked (msg : String)
  | diverged
  | ok (a : α)
deriving DecidableEq

/-- Functorial action on the `ok` branch of an `Outcome`. -/
def Outcome.map {α β : Type} (f : α → β) : Outcome α → Outcome β
  | .panicked m => .panicked m
  | .diverged => .diverged
  | .ok a => .ok (f a)

/-- First half of the loop body of `findnode_log2distance`:
`if distance + difference <= 256 { result_list.push(distance + difference) }`. -/
def spreadPushHigh (distance difference : Nat) (result_list : List Nat) : List Nat :=
  if distance + difference ≤ 256 then result_list ++ [distance + difference]
  else result_list

/-- Second half of the loop body: if the list is still short, push
`distance.checked_sub(difference)` when it exists (`difference ≤ distance`). -/
def spreadPushLow (distance size difference : Nat) (result_list : List Nat) : List Nat :=
  if result_list.length < size ∧ difference ≤ distance
  then result_list ++ [distance - difference] else result_list

/-- The `while` loop of `findnode_log2distance`, with explicit fuel
(one unit per loop-condition check; `none` models non-termination).
Each iteration runs `spreadPushHigh`, then `spreadPushLow`, then bumps
`difference`, exactly in source order. -/
def spreadLoop (distance size : Nat) : Nat → List Nat → Nat → Option (List Nat)
  | 0, _, _ => none
  | fuel + 1, result_list, difference =>
    if result_list.length < size then
      spreadLoop distance size fuel
        (spreadPushLow distance size difference
          (spreadPushHigh distance difference result_list))
        (difference + 1)
    else some result_list

/-- `findnode_log2distance` from `query_info.rs`: panics when
`size > 127`, returns `none` when no log2 distance exists, and otherwise
produces the alternating spread around the true distance, truncated to
`size` entries.  Fuel `size + 1` is proved sufficient (`claim_C9`). -/
def findnode_log2distance (target peer : NodeId) (size : Nat) :
    Outcome (Option (List Nat)) :=
  if size > 127 then Outcome.panicked "Iterations cannot be greater than 127"
  else
    match log2Distance (NodeId.toNat peer) (NodeId.toNat target) with
    | none => Outcome.ok none
    | some distance =>
      match spreadLoop distance size (size + 1) [distance] 1 with
      | none => Outcome.diverged
      | some l => Outcome.ok (some (l.take size))

/-- `QueryInfo::rpc_request`: builds the RPC request body for a peer,
substituting the single-element distance list `[0]` when the spread is
`None`.  A panic in `findnode_log2distance` propagates. -/
def QueryInfo.rpc_request (self : QueryInfo) (peer : NodeId) :
    Outcome RequestBody :=
  match self.query_type with
  | QueryType.FindNode node_id =>
    (findnode_log2distance node_id peer self.distances_to_request).map
      (fun distances => RequestBody.FindNode (distances.getD [0]))
  | QueryType.FindValue k =>
    (findnode_log2distance k peer self.distances_to_request).map
      (fun distances => RequestBody.FindValue k (distances.getD [0]))

/-- Modelled from the spec: the kbucket `Key` (outside the visible
sources) pairs a preimage with the byte string used for XOR distances. -/
structure Key : Type where
  preimage : NodeId
  hash : List Nat
deriving DecidableEq

/-- Modelled from the spec: `Key::new_raw` builds a `Key` from a
preimage and explicit hash bytes. -/
def Key.new_raw (pre : NodeId) (h : List Nat) : Key := ⟨pre, h⟩

/-- `TargetKey::key` for `QueryInfo`: both variants project the carried
identifier to `Key::new_raw(id, id.raw())`. -/
def QueryInfo.key (self : QueryInfo) : Key :=
  match self.query_type with
  | QueryType.FindNode node_id => Key.new_raw node_id node_id.raw
  | QueryType.FindValue k => Key.new_raw k k.raw

/-- The all-zero node id (test target). -/
def zeroId : NodeId := ⟨List.replicate 32 0, by decide⟩

/-- All-zero id with byte 10 set to 1 (log2 distance 169 from zero). -/
def idByte10 : NodeId :=
  ⟨List.replicate 10 0 ++ [1] ++ List.replicate 21 0, by decide⟩

/-- All-zero id with byte 31 set to 8 (log2 distance 4 from zero). -/
def idLow : NodeId := ⟨List.replicate 31 0 ++ [8], by decide⟩

/-- All-zero id with byte 0 set to 8 (log2 distance 252 from zero). -/
def idHigh : NodeId := ⟨[8] ++ List.replicate 31 0, by decide⟩

/-- An abstract peer record (used only to vary `untrusted_enrs`). -/
def mkEnr (n : Nat) : Enr := n

/-- Closed form of the candidates pushed by the loop for differences
`1..n`: per difference, the in-range high candidate then the in-range low
candidate, out-of-range candidates omitted. -/
def clipSeg (d : Nat) : Nat → List Nat
  | 0 => []
  | n + 1 => clipSeg d n ++
      ((if d + (n + 1) ≤ 256 then [d + (n + 1)] else []) ++
       (if n + 1 ≤ d then [d - (n + 1)] else []))

/-- The spec's unclipped alternation `d+1, d-1, d+2, d-2, …` for
differences `1..n`, stated from the spec's words for comparison. -/
def altSeg (d : Nat) : Nat → List Nat
  | 0 => []
  | n + 1 => altSeg d n ++ [d + (n + 1), d - (n + 1)]

theorem foldlBytes_shift (l : List Nat) :
    ∀ i : Nat, l.foldl (fun a b => a * 256 + b) i =
      i * 256 ^ l.length + l.foldl (fun a b => a * 256 + b) 0 := by
  induction l with
  | nil => intro i; simp
  | cons b t ih =>
    intro i
    simp only [List.foldl_cons, List.length_cons]
    rw [ih (i * 256 + b), ih (0 * 256 + b)]
    ring

theorem bytesToNat_cons (b : Nat) (t : List Nat) :
    bytesToNat (b :: t) = b * 256 ^ t.length + bytesToNat t := by
  unfold bytesToNat
  simp only [List.foldl_cons]
  rw [foldlBytes_shift t (0 * 256 + b)]
  ring

theorem bytesToNat_lt (l : List Nat) (h : ∀ b ∈ l, b < 256) :
    bytesToNat l < 256 ^ l.length := by
  induction l with
  | nil => simp [bytesToNat]
  | cons b t ih =>
    have hb : b < 256 := h b (by simp)
    have ht : bytesToNat t < 256 ^ t.length :=
      ih (fun x hx => h x (by simp [hx]))
    rw [bytesToNat_cons, List.length_cons]
    have h1 : b * 256 ^ t.length + bytesToNat t < (b + 1) * 256 ^ t.length := by
      have := Nat.add_lt_add_left ht (b * 256 ^ t.length)
      calc b * 256 ^ t.length + bytesToNat t
          < b * 256 ^ t.length + 256 ^ t.length := this
        _ = (b + 1) * 256 ^ t.length := by ring
    have h2 : (b + 1) * 256 ^ t.length ≤ 256 * 256 ^ t.length :=
      Nat.mul_le_mul_right _ (by omega)
    calc b * 256 ^ t.length + bytesToNat t
        < (b + 1) * 256 ^ t.length := h1
      _ ≤ 256 * 256 ^ t.length := h2
      _ = 256 ^ (t.length + 1) := by ring

theorem bytesToNat_inj : ∀ (l1 l2 : List Nat), l1.length = l2.length →
    (∀ b ∈ l1, b < 256) → (∀ b ∈ l2, b < 256) →
    bytesToNat l1 = bytesToNat l2 → l1 = l2 := by
  intro l1
  induction l1 with
  | nil =>
    intro l2 hlen _ _ _
    cases l2 with
    | nil => rfl
    | cons c s => simp at hlen
  | cons b t ih =>
    intro l2 hlen h1 h2 heq
    cases l2 with
    | nil => simp at hlen
    | cons c s =>
      have hlen' : t.length = s.length := by simpa using hlen
      have hbt : bytesToNat t < 256 ^ t.length :=
        bytesToNat_lt t (fun x hx => h1 x (by simp [hx]))
      have hcs : bytesToNat s < 256 ^ t.length := by
        rw [hlen']
        exact bytesToNat_lt s (fun x hx => h2 x (by simp [hx]))
      have heq' : b * 256 ^ t.length + bytesToNat t
          = c * 256 ^ t.length + bytesToNat s := by
        have := heq
        rw [bytesToNat_cons, bytesToNat_cons, ← hlen'] at this
        exact this
      have hK : 0 < 256 ^ t.length := Nat.pos_pow_of_pos _ (by omega)
      have hb_eq : b = c := by
        have db : (256 ^ t.length * b + bytesToNat t) / 256 ^ t.length = b := by
          rw [Nat.mul_add_div hK, Nat.div_eq_of_lt hbt, Nat.add_zero]
        have dc : (256 ^ t.length * c + bytesToNat s) / 256 ^ t.length = c := by
          rw [Nat.mul_add_div hK, Nat.div_eq_of_lt hcs, Nat.add_zero]
        rw [← db, ← dc]
        rw [Nat.mul_comm (256 ^ t.length) b, Nat.mul_comm (256 ^ t.length) c]
        rw [heq']
      have ht_eq : bytesToNat t = bytesToNat s := by
        rw [hb_eq] at heq'
        omega
      have : t = s := ih s hlen' (fun x hx => h1 x (by simp [hx]))
        (fun x hx => h2 x (by simp [hx])) ht_eq
      rw [hb_eq, this]

theorem NodeId.toNat_inj {a b : NodeId} (h : NodeId.toNat a = NodeId.toNat b) :
    a = b := by
  apply Subtype.ext
  exact bytesToNat_inj a.val b.val (a.property.1.trans b.property.1.symm)
    a.property.2 b.property.2 h

theorem bitlenAux_le (fuel : Nat) : ∀ n, bitlenAux fuel n ≤ fuel := by
  induction fuel with
  | zero => intro n; simp [bitlenAux]
  | succ f ih =>
    intro n
    by_cases hn : n = 0
    · simp [bitlenAux, hn]
    · simp only [bitlenAux, if_neg hn]
      have := ih (n / 2)
      omega

theorem log2Distance_self (a : Nat) : log2Distance a a = none := by
  simp [log2Distance]

theorem log2Distance_of_ne {a b : Nat} (h : a ≠ b) :
    ∃ d, log2Distance a b = some d ∧ d ≤ 256 := by
  have hx : a ^^^ b ≠ 0 := fun h0 => h (Nat.xor_eq_zero.mp h0)
  exact ⟨bitlen256 (a ^^^ b), by simp [log2Distance, hx], bitlenAux_le 256 _⟩

theorem log2Distance_isSome_of_ne {a b : Nat} (h : a ≠ b) :
    log2Distance a b ≠ none := by
  obtain ⟨d, hd, -⟩ := log2Distance_of_ne h
  simp [hd]

theorem clipSeg_length (d : Nat) (hd : d ≤ 256) :
    ∀ n, (clipSeg d n).length = min n (256 - d) + min n d := by
  intro n
  induction n with
  | zero => simp [clipSeg]
  | succ m ih =>
    simp only [clipSeg, List.length_append]
    rw [ih]
    by_cases h1 : d + (m + 1) ≤ 256 <;> by_cases h2 : m + 1 ≤ d <;>
      simp [h1, h2] <;> omega

theorem clipSeg_add (d : Nat) : ∀ n k, ∃ t, clipSeg d (n + k) = clipSeg d n ++ t := by
  intro n k
  induction k with
  | zero => exact ⟨[], by simp⟩
  | succ m ih =>
    obtain ⟨t, ht⟩ := ih
    have e : n + (m + 1) = (n + m) + 1 := by omega
    rw [e]
    refine ⟨t ++ ((if d + (n + m + 1) ≤ 256 then [d + (n + m + 1)] else []) ++
      (if n + m + 1 ≤ d then [d - (n + m + 1)] else [])), ?_⟩
    simp only [clipSeg]
    rw [ht, List.append_assoc]

theorem clipSeg_mono (d n m : Nat) (h : n ≤ m) :
    ∃ t, clipSeg d m = clipSeg d n ++ t := by
  have e : m = n + (m - n) := by omega
  rw [e]
  exact clipSeg_add d n (m - n)

theorem take_clipSeg_stable (d size n m : Nat) (hnm : n ≤ m)
    (hs : size ≤ (d :: clipSeg d n).length) :
    (d :: clipSeg d m).take size = (d :: clipSeg d n).take size := by
  obtain ⟨t, ht⟩ := clipSeg_mono d n m hnm
  rw [ht, show (d :: (clipSeg d n ++ t)) = (d :: clipSeg d n) ++ t from rfl]
  exact List.take_append_of_le_length hs

theorem mem_clipSeg {d x : Nat} : ∀ {n}, x ∈ clipSeg d n →
    ∃ j, 1 ≤ j ∧ j ≤ n ∧ ((d + j ≤ 256 ∧ x = d + j) ∨ (j ≤ d ∧ x = d - j)) := by
  intro n
  induction n with
  | zero => intro h; simp [clipSeg] at h
  | succ m ih =>
    intro h
    simp only [clipSeg, List.mem_append] at h
    rcases h with h | h | h
    · obtain ⟨j, hj1, hj2, hj3⟩ := ih h
      exact ⟨j, hj1, by omega, hj3⟩
    · by_cases hc : d + (m + 1) ≤ 256
      · rw [if_pos hc] at h
        simp at h
        exact ⟨m + 1, by omega, by omega, Or.inl ⟨hc, h⟩⟩
      · rw [if_neg hc] at h
        simp at h
    · by_cases hc : m + 1 ≤ d
      · rw [if_pos hc] at h
        simp at h
        exact ⟨m + 1, by omega, by omega, Or.inr ⟨hc, h⟩⟩
      · rw [if_neg hc] at h
        simp at h

theorem not_mem_clipSeg_self (d n : Nat) : d ∉ clipSeg d n := by
  intro h
  obtain ⟨j, hj1, hj2, hj3⟩ := mem_clipSeg h
  rcases hj3 with ⟨h1, h2⟩ | ⟨h1, h2⟩ <;> omega

theorem mem_clipSeg_le {d x n : Nat} (hd : d ≤ 256) (h : x ∈ clipSeg d n) :
    x ≤ 256 := by
  obtain ⟨j, hj1, hj2, hj3⟩ := mem_clipSeg h
  rcases hj3 with ⟨h1, h2⟩ | ⟨h1, h2⟩ <;> omega

theorem clipSeg_nodup (d : Nat) : ∀ n, (clipSeg d n).Nodup := by
  intro n
  induction n with
  | zero => simp [clipSeg]
  | succ m ih =>
    simp only [clipSeg]
    rw [List.nodup_append]
    refine ⟨ih, ?_, ?_⟩
    · by_cases h1 : d + (m + 1) ≤ 256
      · by_cases h2 : m + 1 ≤ d
        · simp [h1, h2]
          omega
        · simp [h1, h2]
      · by_cases h2 : m + 1 ≤ d
        · simp [h1, h2]
        · simp [h1, h2]
    · intro x hx hx'
      obtain ⟨j, hj1, hj2, hj3⟩ := mem_clipSeg hx
      simp only [List.mem_append] at hx'
      rcases hx' with h | h
      · by_cases hc : d + (m + 1) ≤ 256
        · rw [if_pos hc] at h
          simp at h
          rcases hj3 with ⟨e1, e2⟩ | ⟨e1, e2⟩ <;> omega
        · rw [if_neg hc] at h
          simp at h
      · by_cases hc : m + 1 ≤ d
        · rw [if_pos hc] at h
          simp at h
          rcases hj3 with ⟨e1, e2⟩ | ⟨e1, e2⟩ <;> omega
        · rw [if_neg hc] at h
          simp at h

theorem clipSeg_eq_altSeg (d : Nat) :
    ∀ n, d + n ≤ 256 → n ≤ d → clipSeg d n = altSeg d n := by
  intro n
  induction n with
  | zero => intro _ _; rfl
  | succ m ih =>
    intro h1 h2
    simp only [clipSeg, altSeg]
    rw [if_pos (show d + (m + 1) ≤ 256 by omega),
      if_pos (show m + 1 ≤ d by omega), ih (by omega) (by omega)]
    simp

theorem clipSeg_succ_eq (d diff : Nat) (hdiff : 1 ≤ diff) :
    clipSeg d diff = clipSeg d (diff - 1) ++
      ((if d + diff ≤ 256 then [d + diff] else []) ++
       (if diff ≤ d then [d - diff] else [])) := by
  have e : diff = (diff - 1) + 1 := by omega
  rw [e]
  simp only [clipSeg]
  rw [← e]

theorem spreadStep_char (d size diff : Nat) (acc : List Nat)
    (hlt : acc.length < size) (hdiff : 1 ≤ diff)
    (hacc : acc = d :: clipSeg d (diff - 1))
    (hOR : d + diff ≤ 256 ∨ diff ≤ d) :
    acc.length < (spreadPushLow d size diff (spreadPushHigh d diff acc)).length ∧
    (((spreadPushLow d size diff (spreadPushHigh d diff acc)).length < size ∧
        spreadPushLow d size diff (spreadPushHigh d diff acc) =
          d :: clipSeg d diff) ∨
     ((spreadPushLow d size diff (spreadPushHigh d diff acc)).length = size ∧
        spreadPushLow d size diff (spreadPushHigh d diff acc) =
          (d :: clipSeg d diff).take size)) := by
  have hcd := clipSeg_succ_eq d diff hdiff
  by_cases hP : d + diff ≤ 256
  · have hH : spreadPushHigh d diff acc = acc ++ [d + diff] := by
      simp [spreadPushHigh, hP]
    by_cases hM : diff ≤ d
    · by_cases hL : (acc ++ [d + diff]).length < size
      · have hLo : spreadPushLow d size diff (acc ++ [d + diff]) =
            (acc ++ [d + diff]) ++ [d - diff] := by
          simp only [spreadPushLow, if_pos (And.intro hL hM)]
        rw [hH, hLo]
        have heq : (acc ++ [d + diff]) ++ [d - diff] = d :: clipSeg d diff := by
          rw [hacc, hcd, if_pos hP, if_pos hM]
          simp
        have hlen : ((acc ++ [d + diff]) ++ [d - diff]).length
            = acc.length + 2 := by simp
        refine ⟨by omega, ?_⟩
        have hle : acc.length + 2 ≤ size := by
          simp at hL
          omega
        by_cases hsz2 : acc.length + 2 < size
        · exact Or.inl ⟨by omega, heq⟩
        · refine Or.inr ⟨by omega, ?_⟩
          have hlenle : (acc ++ [d + diff] ++ [d - diff]).length ≤ size := by omega
          rw [← heq, List.take_of_length_le hlenle]
      · have hLo : spreadPushLow d size diff (acc ++ [d + diff]) =
            acc ++ [d + diff] := by
          simp only [spreadPushLow]
          rw [if_neg]
          intro hcon
          exact hL hcon.1
        rw [hH, hLo]
        have hlen : (acc ++ [d + diff]).length = acc.length + 1 := by simp
        have hsz1 : acc.length + 1 = size := by
          simp at hL
          omega
        refine ⟨by omega, Or.inr ⟨by omega, ?_⟩⟩
        have heq : d :: clipSeg d diff = (acc ++ [d + diff]) ++ [d - diff] := by
          rw [hacc, hcd, if_pos hP, if_pos hM]
          simp
        rw [heq, List.take_append_of_le_length (by omega),
          List.take_of_length_le (by omega)]
    · have hLo : spreadPushLow d size diff (acc ++ [d + diff]) =
          acc ++ [d + diff] := by
        simp only [spreadPushLow]
        rw [if_neg]
        intro hcon
        exact hM hcon.2
      rw [hH, hLo]
      have heq : acc ++ [d + diff] = d :: clipSeg d diff := by
        rw [hacc, hcd, if_pos hP, if_neg hM]
        simp
      have hlen : (acc ++ [d + diff]).length = acc.length + 1 := by simp
      refine ⟨by omega, ?_⟩
      by_cases hsz1 : acc.length + 1 < size
      · exact Or.inl ⟨by omega, heq⟩
      · refine Or.inr ⟨by omega, ?_⟩
        have hlenle : (acc ++ [d + diff]).length ≤ size := by omega
        rw [← heq, List.take_of_length_le hlenle]
  · have hM : diff ≤ d := hOR.resolve_left hP
    have hH : spreadPushHigh d diff acc = acc := by
      simp [spreadPushHigh, hP]
    have hLo : spreadPushLow d size diff acc = acc ++ [d - diff] := by
      simp only [spreadPushLow, if_pos (And.intro hlt hM)]
    rw [hH, hLo]
    have heq : acc ++ [d - diff] = d :: clipSeg d diff := by
      rw [hacc, hcd, if_neg hP, if_pos hM]
      simp
    have hlen : (acc ++ [d - diff]).length = acc.length + 1 := by simp
    refine ⟨by omega, ?_⟩
    by_cases hsz1 : acc.length + 1 < size
    · exact Or.inl ⟨by omega, heq⟩
    · refine Or.inr ⟨by omega, ?_⟩
      have hlenle : (acc ++ [d - diff]).length ≤ size := by omega
      rw [← heq, List.take_of_length_le hlenle]

theorem spreadLoop_run (d size : Nat) (hd : d ≤ 256) (hsz : size ≤ 127) :
    ∀ fuel diff acc, 1 ≤ diff →
      ((acc.length < size ∧ acc = d :: clipSeg d (diff - 1)) ∨
       (acc.length = size ∧ acc = (d :: clipSeg d (diff - 1)).take size)) →
      size - acc.length < fuel →
      spreadLoop d size fuel acc diff = some ((d :: clipSeg d 256).take size) := by
  intro fuel
  induction fuel with
  | zero =>
    intro diff acc hdiff hinv hf
    omega
  | succ f ih =>
    intro diff acc hdiff hinv hf
    by_cases hlt : acc.length < size
    · have hacc : acc = d :: clipSeg d (diff - 1) := by
        rcases hinv with ⟨_, h⟩ | ⟨he, _⟩
        · exact h
        · omega
      have hOR : d + diff ≤ 256 ∨ diff ≤ d := by
        by_contra hc
        push_neg at hc
        obtain ⟨h1, h2⟩ := hc
        have hlen : acc.length =
            1 + (min (diff - 1) (256 - d) + min (diff - 1) d) := by
          rw [hacc, List.length_cons, clipSeg_length d hd]
          omega
        omega
      obtain ⟨hgrow, hinv'⟩ := spreadStep_char d size diff acc hlt hdiff hacc hOR
      simp only [spreadLoop, if_pos hlt]
      refine ih (diff + 1) _ (by omega) ?_ (by omega)
      have e : diff + 1 - 1 = diff := by omega
      rw [e]
      exact hinv'
    · rcases hinv with ⟨h, _⟩ | ⟨he, hacc⟩
      · omega
      · simp only [spreadLoop, if_neg hlt]
        have hXlen : size ≤ (d :: clipSeg d (diff - 1)).length := by
          have := congrArg List.length hacc
          rw [List.length_take] at this
          omega
        have hgoal : acc = (d :: clipSeg d 256).take size := by
          rw [hacc]
          by_cases hc : diff - 1 ≤ 256
          · exact (take_clipSeg_stable d size (diff - 1) 256 hc hXlen).symm
          · have h257 : size ≤ (d :: clipSeg d 256).length := by
              rw [List.length_cons, clipSeg_length d hd]
              omega
            exact take_clipSeg_stable d size 256 (diff - 1) (by omega) h257
        rw [hgoal]

theorem findnode_char (target peer : NodeId) (size : Nat) (hsz : size ≤ 127)
    (d : Nat)
    (hld : log2Distance (NodeId.toNat peer) (NodeId.toNat target) = some d) :
    findnode_log2distance target peer size =
      Outcome.ok (some ((d :: clipSeg d 256).take size)) := by
  have hd : d ≤ 256 := by
    unfold log2Distance at hld
    by_cases hx : NodeId.toNat peer ^^^ NodeId.toNat target = 0
    · rw [if_pos hx] at hld
      exact absurd hld (by simp)
    · rw [if_neg hx] at hld
      have := bitlenAux_le 256 (NodeId.toNat peer ^^^ NodeId.toNat target)
      have hbd : bitlen256 (NodeId.toNat peer ^^^ NodeId.toNat target) = d :=
        Option.some.inj hld
      unfold bitlen256 at hbd
      omega
  have hmain : findnode_log2distance target peer size =
      match spreadLoop d size (size + 1) [d] 1 with
      | none => Outcome.diverged
      | some l => Outcome.ok (some (l.take size)) := by
    unfold findnode_log2distance
    rw [if_neg (by omega), hld]
  rw [hmain]
  by_cases hsz0 : size = 0
  · subst hsz0
    have hl : spreadLoop d 0 (0 + 1) [d] 1 = some [d] := by
      simp [spreadLoop]
    rw [hl]
    simp
  · have h1 : 1 ≤ size := by omega
    have hseg0 : clipSeg d (1 - 1) = [] := rfl
    have hrun := spreadLoop_run d size hd hsz (size + 1) 1 [d] (by omega) ?_ ?_
    · rw [hrun]
      have hlt : ((d :: clipSeg d 256).take size).length ≤ size := by
        rw [List.length_take]
        omega
      show Outcome.ok (some (((d :: clipSeg d 256).take size).take size)) =
        Outcome.ok (some ((d :: clipSeg d 256).take size))
      rw [List.take_of_length_le hlt]
    · by_cases hone : 1 < size
      · refine Or.inl ⟨by simpa using hone, ?_⟩
        rw [hseg0]
      · refine Or.inr ⟨by simp only [List.length_singleton]; omega, ?_⟩
        have hs1 : size = 1 := by omega
        subst hs1
        rw [hseg0]
        rfl
    · simp only [List.length_singleton]
      omega

theorem log2Distance_le_256 {a b d : Nat} (h : log2Distance a b = some d) :
    d ≤ 256 := by
  unfold log2Distance at h
  by_cases hx : a ^^^ b = 0
  · rw [if_pos hx] at h
    exact absurd h (by simp)
  · rw [if_neg hx] at h
    have hb := bitlenAux_le 256 (a ^^^ b)
    have he : bitlen256 (a ^^^ b) = d := Option.some.inj h
    unfold bitlen256 at he
    omega

theorem findnode_of_ne (target peer : NodeId) (size : Nat)
    (hne : target ≠ peer) (hsz : size ≤ 127) :
    ∃ d, d ≤ 256 ∧
      log2Distance (NodeId.toNat peer) (NodeId.toNat target) = some d ∧
      findnode_log2distance target peer size =
        Outcome.ok (some ((d :: clipSeg d 256).take size)) := by
  have hnat : NodeId.toNat peer ≠ NodeId.toNat target :=
    fun h => hne ((NodeId.toNat_inj h).symm)
  obtain ⟨d, hd, hle⟩ := log2Distance_of_ne hnat
  exact ⟨d, hle, hd, findnode_char target peer size hsz d hd⟩

theorem findnode_self (target : NodeId) (size : Nat) (hsz : size ≤ 127) :
    findnode_log2distance target target size = Outcome.ok none := by
  unfold findnode_log2distance
  rw [if_neg (by omega), log2Distance_self]

theorem spreadList_length (d size : Nat) (hd : d ≤ 256) (hsz : size ≤ 127) :
    ((d :: clipSeg d 256).take size).length = size := by
  rw [List.length_take, List.length_cons, clipSeg_length d hd]
  omega

theorem spreadList_mem_le (d size : Nat) (hd : d ≤ 256) {x : Nat}
    (hx : x ∈ (d :: clipSeg d 256).take size) : x ≤ 256 := by
  have hm := List.take_subset size (d :: clipSeg d 256) hx
  rcases List.mem_cons.mp hm with h | h
  · omega
  · exact mem_clipSeg_le hd h

theorem rpc_request_findNode (q : QueryInfo) (p nid : NodeId)
    (hqt : q.query_type = QueryType.FindNode nid) :
    q.rpc_request p =
      (findnode_log2distance nid p q.distances_to_request).map
        (fun distances => RequestBody.FindNode (distances.getD [0])) := by
  unfold QueryInfo.rpc_request
  rw [hqt]

theorem rpc_request_findValue (q : QueryInfo) (p k : NodeId)
    (hqt : q.query_type = QueryType.FindValue k) :
    q.rpc_request p =
      (findnode_log2distance k p q.distances_to_request).map
        (fun distances => RequestBody.FindValue k (distances.getD [0])) := by
  unfold QueryInfo.rpc_request
  rw [hqt]

theorem QueryInfo.key_eq (q : QueryInfo) :
    q.key = Key.new_raw q.query_type.node (q.query_type.node).raw := by
  rcases q with ⟨qt, e, c, n⟩
  cases qt <;> rfl

/-- C1: for every `target ≠ peer` and `count ≤ 127`,
`findnode_log2distance` returns `Some` of a sequence with exactly
`count` elements, all of which lie in `[0, 256]` (the lower bound holds
because distances are naturals). -/
theorem claim_C1 (target peer : NodeId) (size : Nat)
    (hne : target ≠ peer) (hsz : size ≤ 127) :
    ∃ l, findnode_log2distance target peer size = Outcome.ok (some l) ∧
      l.length = size ∧ ∀ x ∈ l, x ≤ 256 := by
  obtain ⟨d, hle, hld, hchar⟩ := findnode_of_ne target peer size hne hsz
  exact ⟨_, hchar, spreadList_length d size hle hsz,
    fun x hx => spreadList_mem_le d size hle hx⟩

theorem claim_C1_w :
    zeroId ≠ idLow ∧
    ∃ l, findnode_log2distance zeroId idLow 11 = Outcome.ok (some l) ∧
      l.length = 11 ∧ ∀ x ∈ l, x ≤ 256 :=
  ⟨by decide, claim_C1 zeroId idLow 11 (by decide) (by decide)⟩

/-- C2: the first element of the produced sequence is the log2 distance
itself; absent boundary clipping (no candidate up to the last requested
difference `size / 2` falls outside `[0, 256]`), the sequence is exactly
the alternation `d, d+1, d-1, d+2, d-2, …` truncated to `size`; and on
the concrete test vector (`target` all-zero, `peer` all-zero except
`byte[10] = 1`, `count = 9`) the output is
`[169, 170, 168, 171, 167, 172, 166, 173, 165]`. -/
theorem claim_C2 :
    (∀ (target peer : NodeId) (size d : Nat),
      log2Distance (NodeId.toNat peer) (NodeId.toNat target) = some d →
      size ≤ 127 → 1 ≤ size →
      ∃ rest, findnode_log2distance target peer size =
        Outcome.ok (some (d :: rest))) ∧
    (∀ (target peer : NodeId) (size d : Nat),
      log2Distance (NodeId.toNat peer) (NodeId.toNat target) = some d →
      size ≤ 127 → 1 ≤ size → d + size / 2 ≤ 256 → size / 2 ≤ d →
      findnode_log2distance target peer size =
        Outcome.ok (some ((d :: altSeg d (size / 2)).take size))) ∧
    findnode_log2distance zeroId idByte10 9 =
      Outcome.ok (some [169, 170, 168, 171, 167, 172, 166, 173, 165]) := by
  refine ⟨?_, ?_, by decide⟩
  · intro target peer size d hld hsz h1
    obtain ⟨s', rfl⟩ : ∃ s', size = s' + 1 := ⟨size - 1, by omega⟩
    refine ⟨(clipSeg d 256).take s', ?_⟩
    rw [findnode_char target peer (s' + 1) hsz d hld, List.take_succ_cons]
  · intro target peer size d hld hsz h1 hplus hminus
    have hd : d ≤ 256 := log2Distance_le_256 hld
    rw [findnode_char target peer size hsz d hld]
    have hs : size ≤ (d :: clipSeg d (size / 2)).length := by
      rw [List.length_cons, clipSeg_length d hd]
      omega
    rw [take_clipSeg_stable d size (size / 2) 256 (by omega) hs,
      clipSeg_eq_altSeg d (size / 2) (by omega) hminus]

theorem claim_C2_w :
    log2Distance (NodeId.toNat idByte10) (NodeId.toNat zeroId) = some 169 ∧
    findnode_log2distance zeroId idByte10 9 =
      Outcome.ok (some ((169 :: altSeg 169 (9 / 2)).take 9)) :=
  ⟨by decide, claim_C2.2.1 zeroId idByte10 9 169 (by decide) (by decide)
    (by decide) (by decide) (by decide)⟩

/-- C3: out-of-range candidates are skipped without duplicates or
wraparound (the produced sequence has no duplicate entries and never
exceeds 256), and on the two boundary test vectors the single-direction
fallback produces exactly `[4,5,3,6,2,7,1,8,0,9,10]` (low end) and
`[252,253,251,254,250,255,249,256,248,247,246]` (high end). -/
theorem claim_C3 :
    (∀ (target peer : NodeId) (size : Nat), target ≠ peer → size ≤ 127 →
      ∃ l, findnode_log2distance target peer size = Outcome.ok (some l) ∧
        l.Nodup ∧ ∀ x ∈ l, x ≤ 256) ∧
    findnode_log2distance zeroId idLow 11 =
      Outcome.ok (some [4, 5, 3, 6, 2, 7, 1, 8, 0, 9, 10]) ∧
    findnode_log2distance zeroId idHigh 11 =
      Outcome.ok (some [252, 253, 251, 254, 250, 255, 249, 256, 248, 247, 246]) := by
  refine ⟨?_, by decide, by decide⟩
  intro target peer size hne hsz
  obtain ⟨d, hle, hld, hchar⟩ := findnode_of_ne target peer size hne hsz
  refine ⟨_, hchar, ?_, fun x hx => spreadList_mem_le d size hle hx⟩
  have hnd : (d :: clipSeg d 256).Nodup := by
    rw [List.nodup_cons]
    exact ⟨not_mem_clipSeg_self d 256, clipSeg_nodup d 256⟩
  exact (List.take_sublist size _).nodup hnd

theorem claim_C3_w :
    ∃ l, findnode_log2distance zeroId idHigh 11 = Outcome.ok (some l) ∧
      l.Nodup ∧ ∀ x ∈ l, x ≤ 256 :=
  claim_C3.1 zeroId idHigh 11 (by decide) (by decide)

/-- C4: for every `count > 127` the function fails fatally (the panic
branch), for all targets and peers; in particular it never reaches the
`None` or `Some` return paths for such a count. -/
theorem claim_C4 (target peer : NodeId) (size : Nat) (h : size > 127) :
    findnode_log2distance target peer size =
      Outcome.panicked "Iterations cannot be greater than 127" := by
  unfold findnode_log2distance
  rw [if_pos h]

theorem claim_C4_w :
    findnode_log2distance zeroId zeroId 128 =
      Outcome.panicked "Iterations cannot be greater than 127" :=
  claim_C4 zeroId zeroId 128 (by decide)

/-- C5: for `count ≤ 127`, `findnode_log2distance` returns `None`
exactly when `target = peer`; and in that degenerate case
`QueryInfo::rpc_request` substitutes the distance list `[0]` in the
emitted request body, for both query variants. -/
theorem claim_C5 (target peer : NodeId) (size : Nat) (hsz : size ≤ 127) :
    (findnode_log2distance target peer size = Outcome.ok none ↔ target = peer) ∧
    (∀ q : QueryInfo, q.distances_to_request = size →
      (q.query_type = QueryType.FindNode peer →
        q.rpc_request peer = Outcome.ok (RequestBody.FindNode [0])) ∧
      (q.query_type = QueryType.FindValue peer →
        q.rpc_request peer = Outcome.ok (RequestBody.FindValue peer [0]))) := by
  constructor
  · constructor
    · intro h
      by_contra hne
      obtain ⟨d, hle, hld, hchar⟩ := findnode_of_ne target peer size hne hsz
      rw [hchar] at h
      simp at h
    · intro h
      subst h
      exact findnode_self target size hsz
  · intro q hq
    constructor
    · intro hqt
      rw [rpc_request_findNode q peer peer hqt, hq,
        findnode_self peer size hsz]
      rfl
    · intro hqt
      rw [rpc_request_findValue q peer peer hqt, hq,
        findnode_self peer size hsz]
      rfl

theorem claim_C5_w :
    (findnode_log2distance zeroId zeroId 5 = Outcome.ok none ↔ zeroId = zeroId) ∧
    QueryInfo.rpc_request
        ⟨QueryType.FindNode zeroId, [], QueryCallback.FindNode 0, 5⟩ zeroId =
      Outcome.ok (RequestBody.FindNode [0]) :=
  ⟨(claim_C5 zeroId zeroId 5 (by decide)).1,
   ((claim_C5 zeroId zeroId 5 (by decide)).2 _ rfl).1 rfl⟩

/-- C6: `rpc_request` emits a `FindNode`-shaped body (distance list
only) when the query type is `FindNode`, and a `FindValue`-shaped body
(the query's key plus the distance list) when it is `FindValue`; in both
cases the distances come from `findnode_log2distance` applied to the
carried identifier, the peer and `distances_to_request`, with the `[0]`
fallback on `None`. -/
theorem claim_C6 (q : QueryInfo) (p : NodeId) :
    (∀ nid, q.query_type = QueryType.FindNode nid →
      q.rpc_request p =
        (findnode_log2distance nid p q.distances_to_request).map
          (fun r => RequestBody.FindNode (r.getD [0]))) ∧
    (∀ k, q.query_type = QueryType.FindValue k →
      q.rpc_request p =
        (findnode_log2distance k p q.distances_to_request).map
          (fun r => RequestBody.FindValue k (r.getD [0]))) := by
  exact ⟨fun nid hqt => rpc_request_findNode q p nid hqt,
    fun k hqt => rpc_request_findValue q p k hqt⟩

theorem claim_C6_w :
    QueryInfo.rpc_request
        ⟨QueryType.FindNode zeroId, [], QueryCallback.FindNode 0, 11⟩ idLow =
      (findnode_log2distance zeroId idLow 11).map
        (fun r => RequestBody.FindNode (r.getD [0])) :=
  (claim_C6 ⟨QueryType.FindNode zeroId, [], QueryCallback.FindNode 0, 11⟩
    idLow).1 zeroId rfl

/-- C7: the key projection sends `FindNode(id)` and `FindValue(id)` to
the same key (it depends only on the carried identifier), is
deterministic, and is collision-free: distinct identifiers yield
distinct key hashes. -/
theorem claim_C7 :
    (∀ (nid : NodeId) (e₁ e₂ : List Enr) (c₁ c₂ : QueryCallback) (n₁ n₂ : Nat),
      QueryInfo.key ⟨QueryType.FindNode nid, e₁, c₁, n₁⟩ =
        QueryInfo.key ⟨QueryType.FindValue nid, e₂, c₂, n₂⟩) ∧
    (∀ q₁ q₂ : QueryInfo, q₁.query_type = q₂.query_type → q₁.key = q₂.key) ∧
    (∀ q₁ q₂ : QueryInfo, q₁.query_type.node ≠ q₂.query_type.node →
      (QueryInfo.key q₁).hash ≠ (QueryInfo.key q₂).hash) := by
  refine ⟨fun nid e₁ e₂ c₁ c₂ n₁ n₂ => rfl, ?_, ?_⟩
  · intro q₁ q₂ h
    rw [QueryInfo.key_eq q₁, QueryInfo.key_eq q₂, h]
  · intro q₁ q₂ h hcon
    rw [QueryInfo.key_eq q₁, QueryInfo.key_eq q₂] at hcon
    exact h (Subtype.ext hcon)

theorem claim_C7_w :
    QueryInfo.key ⟨QueryType.FindNode zeroId, [], QueryCallback.FindNode 0, 1⟩ =
      QueryInfo.key ⟨QueryType.FindValue zeroId, [], QueryCallback.FindValue 0, 2⟩ ∧
    (QueryInfo.key ⟨QueryType.FindNode zeroId, [], QueryCallback.FindNode 0, 1⟩).hash ≠
      (QueryInfo.key ⟨QueryType.FindNode idLow, [], QueryCallback.FindNode 0, 1⟩).hash :=
  ⟨claim_C7.1 zeroId [] [] (QueryCallback.FindNode 0) (QueryCallback.FindValue 0) 1 2,
   claim_C7.2.2 _ _ (by decide)⟩

/-- C8: `rpc_request` is pure with respect to the `QueryInfo`: the
emitted body depends only on `query_type` and `distances_to_request`
(so `untrusted_enrs` and `callback` play no role and are untouched — in
this embedding `rpc_request` is a function of an immutable record), and
two calls with the same arguments produce the same body. -/
theorem claim_C8 :
    (∀ (q q' : QueryInfo) (p : NodeId),
      q.query_type = q'.query_type →
      q.distances_to_request = q'.distances_to_request →
      q.rpc_request p = q'.rpc_request p) ∧
    (∀ (q : QueryInfo) (p : NodeId), q.rpc_request p = q.rpc_request p) := by
  constructor
  · intro q q' p h1 h2
    unfold QueryInfo.rpc_request
    rw [h1, h2]
  · intro q p
    rfl

theorem claim_C8_w :
    QueryInfo.rpc_request
        ⟨QueryType.FindNode zeroId, [], QueryCallback.FindNode 0, 11⟩ idLow =
      QueryInfo.rpc_request
        ⟨QueryType.FindNode zeroId, [mkEnr 1, mkEnr 2],
          QueryCallback.FindValue 7, 11⟩ idLow :=
  claim_C8.1 _ _ idLow rfl rfl

/-- C9: for every `count ≤ 127` the candidate-generation loop
terminates: the embedding never exhausts its fuel (never yields the
`diverged` marker), for all targets and peers. -/
theorem claim_C9 (target peer : NodeId) (size : Nat) (hsz : size ≤ 127) :
    findnode_log2distance target peer size ≠ Outcome.diverged := by
  by_cases hne : target = peer
  · subst hne
    rw [findnode_self target size hsz]
    simp
  · obtain ⟨d, hle, hld, hchar⟩ := findnode_of_ne target peer size hne hsz
    rw [hchar]
    simp

theorem claim_C9_w :
    findnode_log2distance zeroId idLow 11 ≠ Outcome.diverged :=
  claim_C9 zeroId idLow 11 (by decide)

/-- C10: for `count = 0` and `target ≠ peer` the function returns
`Some` of the empty sequence (not `None`), so `rpc_request` with
`distances_to_request = 0` emits an empty distance list and the `[0]`
fallback is not applied. -/
theorem claim_C10 (target peer : NodeId) (hne : target ≠ peer) :
    findnode_log2distance target peer 0 = Outcome.ok (some []) ∧
    (∀ q : QueryInfo, q.distances_to_request = 0 →
      (∀ nid, q.query_type = QueryType.FindNode nid → nid ≠ peer →
        q.rpc_request peer = Outcome.ok (RequestBody.FindNode [])) ∧
      (∀ k, q.query_type = QueryType.FindValue k → k ≠ peer →
        q.rpc_request peer = Outcome.ok (RequestBody.FindValue k []))) := by
  have hzero : ∀ (a b : NodeId), a ≠ b →
      findnode_log2distance a b 0 = Outcome.ok (some []) := by
    intro a b hab
    obtain ⟨d, hle, hld, hchar⟩ := findnode_of_ne a b 0 hab (by omega)
    rw [hchar]
    simp
  refine ⟨hzero target peer hne, ?_⟩
  intro q hq
  constructor
  · intro nid hqt hne'
    rw [rpc_request_findNode q peer nid hqt, hq, hzero nid peer hne']
    rfl
  · intro k hqt hne'
    rw [rpc_request_findValue q peer k hqt, hq, hzero k peer hne']
    rfl

theorem claim_C10_w :
    findnode_log2distance zeroId idLow 0 = Outcome.ok (some []) ∧
    QueryInfo.rpc_request
        ⟨QueryType.FindNode zeroId, [], QueryCallback.FindNode 0, 0⟩ idLow =
      Outcome.ok (RequestBody.FindNode []) :=
  ⟨(claim_C10 zeroId idLow (by decide)).1,
   ((claim_C10 zeroId idLow (by decide)).2 _ rfl).1 zeroId rfl (by decide)⟩
